import Mathlib

/-!
Verification of the similarity-clustering and curation engine of the
photo_sterile repository.  The definitions below are a shallow embedding of
the Python source, chiefly `v10.1_silent_edition.py` (database schema,
ingestion, the "Find Global Duplicates" greedy clustering and its persist
block), together with the resolution actions of `archive/v12.1_Curator.py`
and the scoring formula of `v1_app_sterile.py`.
-/

namespace PhotoSterile

/-- A row of the `images` table (schema in `init_db`, v10.1 lines 29-37):
`(id, path UNIQUE, phash, timestamp, sharpness, width, height, status DEFAULT 'NEW')`.
The perceptual hash is embedded as a bit vector; a missing capture time is
stored as the integer 0 (the convention of `get_timestamp`). -/
structure Row where
  id : Nat
  path : String
  phash : List Bool
  timestamp : Nat
  sharpness : Nat
  width : Nat
  height : Nat
  status : String
deriving DecidableEq

/-- An in-memory clustering record, one entry of `data_objs`
(v10.1 lines 173-181): id, path, hash, timestamp and composite score. -/
structure Obj where
  id : Nat
  path : String
  hash : List Bool
  ts : Nat
  score : ℚ
deriving DecidableEq

/-- Hamming distance between two fingerprints: the number of differing bits
(`img_a['hash'] - img_b['hash']` of the imagehash library). -/
def hamming (a b : List Bool) : Nat :=
  (List.zipWith (fun x y => x != y) a b).count true

/-- The composite score of v10.1 line 180: `r[4] + (r[5]*r[6]/10000)`,
i.e. sharpness plus (width * height) / 10000, computed exactly. -/
def score (r : Row) : ℚ :=
  (r.sharpness : ℚ) + ((r.width * r.height : Nat) : ℚ) / 10000

/-- Build one `data_objs` entry from a catalog row (v10.1 lines 176-181). -/
def toObj (r : Row) : Obj :=
  ⟨r.id, r.path, r.phash, r.timestamp, score r⟩

/-- The `data_objs` list built from the rows of the `images` table. -/
def dataObjs (rows : List Row) : List Obj :=
  rows.map toObj

/-- Insert an element into a list ordered by timestamp, before the first
element with a strictly larger timestamp. -/
def sortedInsertTs (x : Obj) : List Obj → List Obj
  | [] => [x]
  | y :: ys => if x.ts ≤ y.ts then x :: y :: ys else y :: sortedInsertTs x ys

/-- Stable sort by ascending timestamp, modelling
`data_objs.sort(key=lambda x: x['ts'])` (v10.1 line 184); Python's list
sort is a stable sort keyed here on the timestamp. -/
def sortByTs : List Obj → List Obj
  | [] => []
  | x :: xs => sortedInsertTs x (sortByTs xs)

/-- Absolute difference of the two capture timestamps in seconds,
`abs(img_a['ts'] - img_b['ts'])` (v10.1 line 204). -/
def tdist (a b : Obj) : Nat :=
  ((a.ts : Int) - (b.ts : Int)).natAbs

/-- The inner scan of the greedy clustering exactly as v10.1 lines 199-209
runs it: skip visited entries; if both timestamps are present (positive)
and more than `ρ` days apart, BREAK out of the scan; otherwise compare
fingerprints and collect matches, marking them visited.  The comparison
`diff_days > time_rad` with `diff_days = |Δ| / 86400` is embedded exactly
as `ρ * 86400 < |Δ|`.  Returns the collected members and the final
visited set. -/
def innerScanBreak (τ ρ : Nat) (a : Obj) : List Obj → List Nat → List Obj × List Nat
  | [], v => ([], v)
  | b :: rest, v =>
    if b.id ∈ v then innerScanBreak τ ρ a rest v
    else if 0 < a.ts ∧ 0 < b.ts ∧ ρ * 86400 < tdist a b then ([], v)
    else if hamming a.hash b.hash ≤ τ then
      (b :: (innerScanBreak τ ρ a rest (b.id :: v)).1,
        (innerScanBreak τ ρ a rest (b.id :: v)).2)
    else innerScanBreak τ ρ a rest v

/-- The reference inner scan of the specification: the same greedy scan but
with no early exit — the time gate is applied to each pair individually
(a pair farther apart than `ρ` days with both timestamps present is
skipped, and the scan continues). -/
def innerScanFull (τ ρ : Nat) (a : Obj) : List Obj → List Nat → List Obj × List Nat
  | [], v => ([], v)
  | b :: rest, v =>
    if b.id ∈ v then innerScanFull τ ρ a rest v
    else if 0 < a.ts ∧ 0 < b.ts ∧ ρ * 86400 < tdist a b then
      innerScanFull τ ρ a rest v
    else if hamming a.hash b.hash ≤ τ then
      (b :: (innerScanFull τ ρ a rest (b.id :: v)).1,
        (innerScanFull τ ρ a rest (b.id :: v)).2)
    else innerScanFull τ ρ a rest v

/-- The outer loop of the greedy clustering (v10.1 lines 192-212),
parameterised by the inner scan: each unvisited asset seeds a candidate
group, the inner scan collects its matches, and the group is committed as a
cluster exactly when it gained at least one member (`len > 1`). -/
def outerScan (innerF : Obj → List Obj → List Nat → List Obj × List Nat) :
    List Obj → List Nat → List (List Obj)
  | [], _ => []
  | a :: rest, v =>
    if a.id ∈ v then outerScan innerF rest v
    else
      if 0 < (innerF a rest (a.id :: v)).1.length then
        (a :: (innerF a rest (a.id :: v)).1) ::
          outerScan innerF rest (innerF a rest (a.id :: v)).2
      else outerScan innerF rest (innerF a rest (a.id :: v)).2

/-- The clustering of v10.1: greedy scan with the guarded early exit. -/
def findClusters (τ ρ : Nat) (l : List Obj) : List (List Obj) :=
  outerScan (innerScanBreak τ ρ) l []

/-- The reference clustering: the same greedy scan with a full inner scan
(per-pair time gate, no early exit). -/
def findClustersFull (τ ρ : Nat) (l : List Obj) : List (List Obj) :=
  outerScan (innerScanFull τ ρ) l []

/-- Python `max(clust, key=lambda x: x['score'])` accumulator: the current
maximum is replaced only when a later element scores strictly higher, so
the first maximal element wins ties. -/
def pyMaxAux (acc : Obj) : List Obj → Obj
  | [] => acc
  | y :: ys => pyMaxAux (if acc.score < y.score then y else acc) ys

/-- The winner of a cluster, `max(clust, key=lambda x: x['score'])`
(v10.1 line 223); `none` on an empty list (Python raises there, but the
committed clusters always have at least two members). -/
def pyMaxScore : List Obj → Option Obj
  | [] => none
  | x :: xs => some (pyMaxAux x xs)

/-- The rows inserted into the `clusters` table for one committed cluster
(v10.1 lines 222-226): `(c_idx, item['id'], item == winner)`, where the
winner flag is the equality test of the item against the chosen maximum. -/
def persistCluster (cidx : Nat) (c : List Obj) : List (Nat × Nat × Bool) :=
  match pyMaxScore c with
  | none => []
  | some w => c.map (fun item => (cidx, item.id, decide (item = w)))

/-- All rows inserted into the `clusters` table, clusters numbered by
their position (`for c_idx, clust in enumerate(clusters)`). -/
def persistClusters (cs : List (List Obj)) : List (Nat × Nat × Bool) :=
  (cs.enum.map (fun p => persistCluster p.1 p.2)).flatten

/-- The full "Find Global Duplicates" action on the cluster store
(v10.1 lines 163-229): load rows, build and sort `data_objs`, run the
greedy clustering, then `DELETE FROM clusters` (embedded as filtering the
prior store down to nothing) and insert the new generation. -/
def findGlobalDuplicates (rows : List Row) (τ ρ : Nat)
    (store : List (Nat × Nat × Bool)) : List (Nat × Nat × Bool) :=
  store.filter (fun _ => false) ++
    persistClusters (findClusters τ ρ (sortByTs (dataObjs rows)))

/-- The "Find Global Duplicates" button as a transition on the whole
database state `(clusters table, images table)`.  The block at v10.1 lines
218-229 executes only `DELETE FROM clusters` and `INSERT INTO clusters`;
no statement touches the `images` table, so the catalog passes through
unchanged. -/
def detectRun (rows : List Row) (τ ρ : Nat)
    (store : List (Nat × Nat × Bool)) :
    List (Nat × Nat × Bool) × List Row :=
  (findGlobalDuplicates rows τ ρ store, rows)

/-- The analysis result of one file, the tuple returned by `analyze_image`
(v10.1 line 80) minus the leading path component. -/
structure Analysis where
  phash : List Bool
  timestamp : Nat
  sharpness : Nat
  width : Nat
  height : Nat
deriving DecidableEq

/-- A freshly inserted catalog row: the bulk insert at v10.1 line 151 lists
no `status` column, so the schema default `'NEW'` applies. -/
def mkRow (i : Nat) (p : String) (a : Analysis) : Row :=
  ⟨i, p, a.phash, a.timestamp, a.sharpness, a.width, a.height, "NEW"⟩

/-- The bulk `INSERT OR IGNORE` of analysis results (v10.1 line 151): a row
whose path is already present in the catalog is silently dropped, the rest
are appended with fresh ids. -/
def insertBatch : List Row → List (String × Analysis) → List Row
  | cat, [] => cat
  | cat, (p, a) :: rest =>
    if p ∈ cat.map Row.path then insertBatch cat rest
    else insertBatch (cat ++ [mkRow (cat.length + 1) p a]) rest

/-- One ingestion run (v10.1 lines 107-153): collect the existing paths,
keep only candidate paths not already present (the set difference at lines
116-121), analyze each survivor — a failed analysis yields nothing — and
bulk-insert the successes.  `analyze` abstracts `analyze_image`, which
returns the metrics for the path or `None` on any decode failure. -/
def ingest (analyze : String → Option Analysis) (cands : List String)
    (cat : List Row) : List Row :=
  insertBatch cat
    ((cands.filter (fun p => p ∉ cat.map Row.path)).filterMap
      (fun p => (analyze p).map (fun a => (p, a))))

/-- The timestamp extractor `get_timestamp` (v10.1 lines 57-67): when the
EXIF date is present it is parsed into epoch seconds, and every
missing/unparsable branch returns the integer 0.  The EXIF side is
abstracted as the already-parsed epoch value, present or absent. -/
def get_timestamp (exifDate : Option Nat) : Nat :=
  match exifDate with
  | none => 0
  | some t => t

/-- The composite score as the specification words it (§4.3a):
`sharpness + (width * height) / C_res + saturation * W_sat` with `C_res`
and `W_sat` taken as parameters. -/
def score_spec (cRes wSat : ℚ) (sharpness width height saturation : Nat) : ℚ :=
  (sharpness : ℚ) + ((width * height : Nat) : ℚ) / cRes +
    (saturation : ℚ) * wSat

/-- The resolution-score term of `v1_app_sterile.py` line 31:
`int((width * height) / 10000)`, a truncating division. -/
def res_score_v1 (width height : Nat) : Nat :=
  width * height / 10000

/-- The composite score of `v1_app_sterile.py` line 45:
`sharpness + res_score + (saturation * 0.5)`. -/
def total_score_v1 (sharpness width height saturation : Nat) : ℚ :=
  (sharpness : ℚ) + (res_score_v1 width height : ℚ) + (saturation : ℚ) * (1 / 2)

/-- `dissolve_cluster` of `archive/v12.1_Curator.py` lines 95-100:
`DELETE FROM clusters WHERE cluster_id = ?`. -/
def dissolve_cluster (cid : Nat) (store : List (Nat × Nat × Bool)) :
    List (Nat × Nat × Bool) :=
  store.filter (fun r => r.1 ≠ cid)

/-- The observable outcome of a resolution action: which files were moved
into the keepers and discards locations, and the cluster store and asset
catalog afterwards. -/
structure ResolveResult where
  keepers : List String
  discards : List String
  store : List (Nat × Nat × Bool)
  catalog : List Row
deriving DecidableEq

/-- `keep_one` of `archive/v12.1_Curator.py` lines 101-118: move the chosen
path to Keepers, move every cluster item other than the chosen path to
Discards, then `dissolve_cluster`.  No membership check is performed, no
error path exists, and the `images` table is never touched, so the catalog
passes through unchanged. -/
def keep_one (keepPath : String) (clusterItems : List String) (clusterId : Nat)
    (store : List (Nat × Nat × Bool)) (catalog : List Row) : ResolveResult :=
  { keepers := [keepPath]
    discards := clusterItems.filter (fun p => p ≠ keepPath)
    store := dissolve_cluster clusterId store
    catalog := catalog }

/-! Theorems. -/

/-- On a time-ascending pair, the timestamp distance is the difference. -/
theorem tdist_of_le {a b : Obj} (h : a.ts ≤ b.ts) : tdist a b = b.ts - a.ts := by
  simp only [tdist]
  omega

/-- When every remaining asset is time-gated away from the seed, the full
scan collects nothing and leaves the visited set unchanged. -/
theorem innerScanFull_far (τ ρ : Nat) (a : Obj) :
    ∀ (m : List Obj) (v : List Nat),
      (∀ b ∈ m, 0 < a.ts ∧ 0 < b.ts ∧ ρ * 86400 < tdist a b) →
      innerScanFull τ ρ a m v = ([], v) := by
  intro m
  induction m with
  | nil => intro v _; rfl
  | cons b rest ih =>
    intro v h
    have hb := h b (List.mem_cons_self b rest)
    have hrest : ∀ c ∈ rest, 0 < a.ts ∧ 0 < c.ts ∧ ρ * 86400 < tdist a c :=
      fun c hc => h c (List.mem_cons_of_mem b hc)
    simp only [innerScanFull]
    split_ifs with h1 <;> exact ih v hrest

/-- On a time-ascending tail lying at or after the seed, the early-exit
inner scan and the full inner scan agree exactly. -/
theorem inner_eq (τ ρ : Nat) (a : Obj) :
    ∀ (m : List Obj) (v : List Nat),
      m.Pairwise (fun x y => x.ts ≤ y.ts) →
      (∀ b ∈ m, a.ts ≤ b.ts) →
      innerScanBreak τ ρ a m v = innerScanFull τ ρ a m v := by
  intro m
  induction m with
  | nil => intro v _ _; rfl
  | cons b rest ih =>
    intro v hp hge
    have hble := (List.pairwise_cons.mp hp).1
    have hpr := (List.pairwise_cons.mp hp).2
    have hab : a.ts ≤ b.ts := hge b (List.mem_cons_self b rest)
    have hger : ∀ c ∈ rest, a.ts ≤ c.ts :=
      fun c hc => hge c (List.mem_cons_of_mem b hc)
    simp only [innerScanBreak, innerScanFull]
    split_ifs with h1 h2 h3
    · exact ih v hpr hger
    · refine (innerScanFull_far τ ρ a rest v ?_).symm
      intro c hc
      obtain ⟨ha0, hb0, hfar⟩ := h2
      have hbc : b.ts ≤ c.ts := hble c hc
      refine ⟨ha0, lt_of_lt_of_le hb0 hbc, ?_⟩
      rw [tdist_of_le hab] at hfar
      rw [tdist_of_le (le_trans hab hbc)]
      omega
    · rw [ih (b.id :: v) hpr hger]
    · exact ih v hpr hger

/-- On a time-ascending asset sequence, the greedy outer scan produces the
same clusters whether the inner scan takes the guarded early exit or runs
the full per-pair time gate. -/
theorem outer_eq (τ ρ : Nat) :
    ∀ (l : List Obj) (v : List Nat),
      l.Pairwise (fun x y => x.ts ≤ y.ts) →
      outerScan (innerScanBreak τ ρ) l v = outerScan (innerScanFull τ ρ) l v := by
  intro l
  induction l with
  | nil => intro v _; rfl
  | cons a rest ih =>
    intro v hp
    have hge := (List.pairwise_cons.mp hp).1
    have hpr := (List.pairwise_cons.mp hp).2
    simp only [outerScan]
    rw [inner_eq τ ρ a rest (a.id :: v) hpr hge]
    split_ifs with h1 h2
    · exact ih v hpr
    · rw [ih _ hpr]
    · exact ih _ hpr

/-- C1: over a catalog sorted time-ascending, the greedy clustering with
the guarded early exit — break at the first later asset whose timestamp
and the seed's are both present and more than ρ days apart, never breaking
when either timestamp is absent — produces exactly the clusters of the
same greedy scan without the early exit, where the time gate is applied to
each pair individually. -/
theorem earlyExit_eq_fullScan (τ ρ : Nat) (l : List Obj)
    (hs : l.Pairwise (fun x y => x.ts ≤ y.ts)) :
    findClusters τ ρ l = findClustersFull τ ρ l :=
  outer_eq τ ρ l [] hs

/-- C1 witness: a concrete time-ascending catalog of three assets — two
within one day of each other and one far beyond the radius, so the early
exit actually fires — on which both scans produce the same clusters. -/
theorem earlyExit_eq_fullScan_witness :
    ([⟨1, "a", [true, true], 86400, 10⟩,
      ⟨2, "b", [true, true], 100000, 20⟩,
      ⟨3, "c", [false, false], 1000000, 30⟩] : List Obj).Pairwise
        (fun x y => x.ts ≤ y.ts) ∧
    findClusters 5 1
        [⟨1, "a", [true, true], 86400, 10⟩,
         ⟨2, "b", [true, true], 100000, 20⟩,
         ⟨3, "c", [false, false], 1000000, 30⟩] =
      findClustersFull 5 1
        [⟨1, "a", [true, true], 86400, 10⟩,
         ⟨2, "b", [true, true], 100000, 20⟩,
         ⟨3, "c", [false, false], 1000000, 30⟩] :=
  ⟨by decide,
    earlyExit_eq_fullScan 5 1
      [⟨1, "a", [true, true], 86400, 10⟩,
       ⟨2, "b", [true, true], 100000, 20⟩,
       ⟨3, "c", [false, false], 1000000, 30⟩] (by decide)⟩

/-- Each member the early-exit inner scan collects was unvisited at entry,
the collected ids are distinct, and the final visited set holds exactly
the initial ids plus the collected ids. -/
theorem inner_break_spec (τ ρ : Nat) (a : Obj) :
    ∀ (m : List Obj) (v : List Nat),
      (∀ x ∈ (innerScanBreak τ ρ a m v).1, x.id ∉ v) ∧
      ((innerScanBreak τ ρ a m v).1.map Obj.id).Nodup ∧
      (∀ i : Nat, i ∈ (innerScanBreak τ ρ a m v).2 ↔
        i ∈ v ∨ i ∈ (innerScanBreak τ ρ a m v).1.map Obj.id) := by
  intro m
  induction m with
  | nil =>
    intro v
    refine ⟨by simp [innerScanBreak], by simp [innerScanBreak], ?_⟩
    intro i
    simp [innerScanBreak]
  | cons b rest ih =>
    intro v
    simp only [innerScanBreak]
    split_ifs with h1 h2 h3
    · exact ih v
    · exact ⟨by simp, by simp, by simp⟩
    · obtain ⟨ih1, ih2, ih3⟩ := ih (b.id :: v)
      refine ⟨?_, ?_, ?_⟩
      · intro x hx
        rcases List.mem_cons.mp hx with rfl | hx'
        · exact h1
        · exact fun hxv => ih1 x hx' (List.mem_cons_of_mem _ hxv)
      · simp only [List.map_cons]
        refine List.nodup_cons.mpr ⟨?_, ih2⟩
        intro hmem
        obtain ⟨x, hx, hxid⟩ := List.mem_map.mp hmem
        exact ih1 x hx (by rw [hxid]; exact List.mem_cons_self _ _)
      · intro i
        rw [ih3 i]
        simp only [List.mem_cons, List.map_cons]
        tauto
    · exact ih v

/-- Across the outer scan, every asset placed in some produced cluster was
unvisited at the start of the scan, and no id occurs twice across the
produced clusters. -/
theorem outer_break_spec (τ ρ : Nat) :
    ∀ (l : List Obj) (v : List Nat),
      (∀ x ∈ (outerScan (innerScanBreak τ ρ) l v).flatten, x.id ∉ v) ∧
      (((outerScan (innerScanBreak τ ρ) l v).map
        (fun c => c.map Obj.id)).flatten).Nodup := by
  intro l
  induction l with
  | nil =>
    intro v
    constructor <;> simp [outerScan]
  | cons a rest ih =>
    intro v
    simp only [outerScan]
    split_ifs with h1 h2
    · exact ih v
    · obtain ⟨F1, F2, F3⟩ := inner_break_spec τ ρ a rest (a.id :: v)
      obtain ⟨G1, G2⟩ := ih (innerScanBreak τ ρ a rest (a.id :: v)).2
      have hvsub : ∀ i : Nat, i ∈ v →
          i ∈ (innerScanBreak τ ρ a rest (a.id :: v)).2 :=
        fun i hi => (F3 i).mpr (Or.inl (List.mem_cons_of_mem _ hi))
      constructor
      · intro x hx
        rw [List.flatten_cons] at hx
        rcases List.mem_append.mp hx with hx | hx
        · rcases List.mem_cons.mp hx with rfl | hx'
          · exact h1
          · exact fun hv => F1 x hx' (List.mem_cons_of_mem _ hv)
        · exact fun hv => G1 x hx (hvsub x.id hv)
      · simp only [List.map_cons, List.flatten_cons]
        rw [List.nodup_append]
        refine ⟨?_, G2, ?_⟩
        · refine List.nodup_cons.mpr ⟨?_, F2⟩
          intro hmem
          obtain ⟨x, hx, hxid⟩ := List.mem_map.mp hmem
          exact F1 x hx (by rw [hxid]; exact List.mem_cons_self _ _)
        · intro i hi hi2
          have hiv : i ∈ (innerScanBreak τ ρ a rest (a.id :: v)).2 := by
            rcases List.mem_cons.mp hi with rfl | hi'
            · exact (F3 a.id).mpr (Or.inl (List.mem_cons_self _ _))
            · exact (F3 i).mpr (Or.inr hi')
          rw [← List.map_flatten] at hi2
          obtain ⟨x, hx, hxid⟩ := List.mem_map.mp hi2
          exact G1 x hx (by rw [hxid]; exact hiv)
    · obtain ⟨F1, F2, F3⟩ := inner_break_spec τ ρ a rest (a.id :: v)
      obtain ⟨G1, G2⟩ := ih (innerScanBreak τ ρ a rest (a.id :: v)).2
      refine ⟨?_, G2⟩
      intro x hx hv
      exact G1 x hx ((F3 x.id).mpr (Or.inl (List.mem_cons_of_mem _ hv)))

/-- C2: after any single clustering run the committed clusters form a
partition of the assets they contain — reading out the member ids of all
produced clusters yields a list without duplicates, so no catalog id is a
member of two clusters (and none repeats within one cluster). -/
theorem clusters_partition (τ ρ : Nat) (l : List Obj) :
    (((findClusters τ ρ l).map (fun c => c.map Obj.id)).flatten).Nodup :=
  (outer_break_spec τ ρ l []).2

/-- Every member the early-exit inner scan collects is within fingerprint
distance τ of the seed: the scan only ever compares the seed against the
candidate, never two non-seed members. -/
theorem inner_break_ham (τ ρ : Nat) (a : Obj) :
    ∀ (m : List Obj) (v : List Nat),
      ∀ x ∈ (innerScanBreak τ ρ a m v).1, hamming a.hash x.hash ≤ τ := by
  intro m
  induction m with
  | nil =>
    intro v x hx
    simp [innerScanBreak] at hx
  | cons b rest ih =>
    intro v x hx
    simp only [innerScanBreak] at hx
    split_ifs at hx with h1 h2 h3
    · exact ih v x hx
    · simp at hx
    · rcases List.mem_cons.mp hx with rfl | hx'
      · exact h3
      · exact ih (b.id :: v) x hx'
    · exact ih v x hx

/-- The members collected by the inner scan form a sublist of the scanned
tail, in scan order. -/
theorem inner_break_sub (τ ρ : Nat) (a : Obj) :
    ∀ (m : List Obj) (v : List Nat), (innerScanBreak τ ρ a m v).1.Sublist m := by
  intro m
  induction m with
  | nil =>
    intro v
    simp [innerScanBreak]
  | cons b rest ih =>
    intro v
    simp only [innerScanBreak]
    split_ifs with h1 h2 h3
    · exact (ih v).cons b
    · exact List.nil_sublist _
    · exact (ih (b.id :: v)).cons₂ b
    · exact (ih v).cons b

/-- Every produced cluster is a sublist of the scanned sequence: its
members appear in the deterministic scan order. -/
theorem outer_break_sub (τ ρ : Nat) :
    ∀ (l : List Obj) (v : List Nat),
      ∀ c ∈ outerScan (innerScanBreak τ ρ) l v, c.Sublist l := by
  intro l
  induction l with
  | nil =>
    intro v c hc
    simp [outerScan] at hc
  | cons a rest ih =>
    intro v c hc
    simp only [outerScan] at hc
    split_ifs at hc with h1 h2
    · exact (ih v c hc).cons a
    · rcases List.mem_cons.mp hc with rfl | hc'
      · exact (inner_break_sub τ ρ a rest (a.id :: v)).cons₂ a
      · exact (ih _ c hc').cons a
    · exact (ih _ c hc).cons a

/-- Every produced cluster consists of a seed followed by at least one
member, and each such member is within fingerprint distance τ of the
seed. -/
theorem outer_break_shape (τ ρ : Nat) :
    ∀ (l : List Obj) (v : List Nat),
      ∀ c ∈ outerScan (innerScanBreak τ ρ) l v,
        ∃ s ms, c = s :: ms ∧ ms ≠ [] ∧ ∀ b ∈ ms, hamming s.hash b.hash ≤ τ := by
  intro l
  induction l with
  | nil =>
    intro v c hc
    simp [outerScan] at hc
  | cons a rest ih =>
    intro v c hc
    simp only [outerScan] at hc
    split_ifs at hc with h1 h2
    · exact ih v c hc
    · rcases List.mem_cons.mp hc with rfl | hc'
      · refine ⟨a, (innerScanBreak τ ρ a rest (a.id :: v)).1, rfl, ?_, ?_⟩
        · intro hnil
          rw [hnil] at h2
          simp at h2
        · exact fun b hb => inner_break_ham τ ρ a rest (a.id :: v) b hb
      · exact ih _ c hc'
    · exact ih _ c hc

/-- The member ids of any one produced cluster are distinct. -/
theorem cluster_ids_nodup (τ ρ : Nat) (l : List Obj) (c : List Obj)
    (hc : c ∈ outerScan (innerScanBreak τ ρ) l []) : (c.map Obj.id).Nodup := by
  have h := (outer_break_spec τ ρ l []).2
  rw [List.nodup_flatten] at h
  exact h.1 (c.map Obj.id) (List.mem_map_of_mem _ hc)

/-- The Python max accumulator returns the first maximal-score element:
the accumulated list splits around the returned element, everything before
it scores strictly lower, and nothing scores higher. -/
theorem pyMaxAux_spec (xs : List Obj) :
    ∀ (x : Obj),
      ∃ pre post, x :: xs = pre ++ pyMaxAux x xs :: post ∧
        (∀ y ∈ pre, y.score < (pyMaxAux x xs).score) ∧
        (∀ y ∈ x :: xs, y.score ≤ (pyMaxAux x xs).score) := by
  induction xs with
  | nil =>
    intro x
    exact ⟨[], [], rfl, by simp, by simp [pyMaxAux]⟩
  | cons y ys ih =>
    intro x
    by_cases hxy : x.score < y.score
    · have hrec : pyMaxAux x (y :: ys) = pyMaxAux y ys := by
        simp [pyMaxAux, hxy]
      obtain ⟨pre, post, hd, hpre, hall⟩ := ih y
      refine ⟨x :: pre, post, ?_, ?_, ?_⟩
      · rw [hrec, List.cons_append, ← hd]
      · intro z hz
        rw [hrec]
        rcases List.mem_cons.mp hz with rfl | hz'
        · exact lt_of_lt_of_le hxy (hall y (List.mem_cons_self y ys))
        · exact hpre z hz'
      · intro z hz
        rw [hrec]
        rcases List.mem_cons.mp hz with rfl | hz'
        · exact le_of_lt (lt_of_lt_of_le hxy (hall y (List.mem_cons_self y ys)))
        · exact hall z hz'
    · have hrec : pyMaxAux x (y :: ys) = pyMaxAux x ys := by
        simp [pyMaxAux, hxy]
      obtain ⟨pre, post, hd, hpre, hall⟩ := ih x
      cases pre with
      | nil =>
        simp only [List.nil_append] at hd
        injection hd with hm hp
        refine ⟨[], y :: post, ?_, by simp, ?_⟩
        · rw [hrec, ← hm, hp]
          rfl
        · intro z hz
          rw [hrec, ← hm]
          rcases List.mem_cons.mp hz with rfl | hz'
          · exact le_refl _
          rcases List.mem_cons.mp hz' with rfl | hz''
          · exact le_of_not_lt hxy
          · have := hall z (List.mem_cons_of_mem x hz'')
            rw [← hm] at this
            exact this
      | cons p ps =>
        simp only [List.cons_append] at hd
        injection hd with hp1 hp2
        have hxlt : x.score < (pyMaxAux x ys).score := by
          have := hpre p (List.mem_cons_self p ps)
          rw [← hp1] at this
          exact this
        refine ⟨x :: y :: ps, post, ?_, ?_, ?_⟩
        · rw [hrec]
          simp only [List.cons_append]
          rw [← hp2]
        · intro z hz
          rw [hrec]
          rcases List.mem_cons.mp hz with rfl | hz'
          · exact hxlt
          rcases List.mem_cons.mp hz' with rfl | hz''
          · exact lt_of_le_of_lt (le_of_not_lt hxy) hxlt
          · exact hpre z (List.mem_cons_of_mem p hz'')
        · intro z hz
          rw [hrec]
          rcases List.mem_cons.mp hz with rfl | hz'
          · exact hall z (List.mem_cons_self _ _)
          rcases List.mem_cons.mp hz' with rfl | hz''
          · exact le_trans (le_of_not_lt hxy) (hall x (List.mem_cons_self _ _))
          · exact hall z (List.mem_cons_of_mem x hz'')

/-- Filtering the inserted rows of one cluster down to the winner-flagged
rows yields exactly one row, carrying the winner's id, provided the
cluster has no duplicate member and the winner is a member. -/
theorem persist_winner_rows (k : Nat) (w : Obj) :
    ∀ (c : List Obj), c.Nodup → w ∈ c →
      ((c.map (fun item => (k, item.id, decide (item = w)))).filter
        (fun e => e.2.2)) = [(k, w.id, true)] := by
  intro c
  induction c with
  | nil =>
    intro _ h
    cases h
  | cons a rest ih =>
    intro hn hw
    rcases List.mem_cons.mp hw with rfl | hw'
    · have hwn : w ∉ rest := (List.nodup_cons.mp hn).1
      have hrest : ((rest.map (fun item => (k, item.id, decide (item = w)))).filter
          (fun e => e.2.2)) = [] := by
        rw [List.filter_eq_nil_iff]
        intro e he
        obtain ⟨x, hx, rfl⟩ := List.mem_map.mp he
        simp only [decide_eq_true_eq]
        exact fun hxw => hwn (hxw ▸ hx)
      simp [List.filter_cons, hrest]
    · have hna : a ≠ w := fun he => (List.nodup_cons.mp hn).1 (he ▸ hw')
      simp [List.filter_cons, hna, ih (List.nodup_cons.mp hn).2 hw']

/-- C4: the cluster store produced by one "Find Global Duplicates" run is a
pure function of the catalog rows and the two parameters τ and ρ: the prior
cluster store contents are irrelevant (the run starts with a delete-all),
and re-running with the same catalog reproduces the identical store. -/
theorem detect_deterministic (rows : List Row) (τ ρ : Nat)
    (s₁ s₂ : List (Nat × Nat × Bool)) :
    findGlobalDuplicates rows τ ρ s₁ = findGlobalDuplicates rows τ ρ s₂ ∧
    findGlobalDuplicates rows τ ρ (findGlobalDuplicates rows τ ρ s₁) =
      findGlobalDuplicates rows τ ρ s₁ := by
  constructor <;> simp [findGlobalDuplicates]

/-- A path already present in the catalog is still present after any bulk
insert-or-ignore batch. -/
theorem insertBatch_path_mono :
    ∀ (batch : List (String × Analysis)) (cat : List Row) (p : String),
      p ∈ cat.map Row.path → p ∈ (insertBatch cat batch).map Row.path := by
  intro batch
  induction batch with
  | nil =>
    intro cat p hp
    exact hp
  | cons pa rest ih =>
    intro cat p hp
    obtain ⟨q, b⟩ := pa
    simp only [insertBatch]
    split_ifs with hq
    · exact ih cat p hp
    · refine ih _ p ?_
      simp only [List.map_append]
      exact List.mem_append_left _ hp

/-- Every path carried by a batch entry is present in the catalog after the
bulk insert-or-ignore of that batch. -/
theorem insertBatch_path_adds :
    ∀ (batch : List (String × Analysis)) (cat : List Row) (p : String) (a : Analysis),
      (p, a) ∈ batch → p ∈ (insertBatch cat batch).map Row.path := by
  intro batch
  induction batch with
  | nil =>
    intro cat p a h
    cases h
  | cons pa rest ih =>
    intro cat p a h
    obtain ⟨q, b⟩ := pa
    simp only [insertBatch]
    split_ifs with hq
    · rcases List.mem_cons.mp h with heq | h'
      · injection heq with e1 e2
        subst e1
        exact insertBatch_path_mono rest cat p hq
      · exact ih cat p a h'
    · rcases List.mem_cons.mp h with heq | h'
      · injection heq with e1 e2
        subst e1
        subst e2
        refine insertBatch_path_mono rest _ p ?_
        simp [mkRow, List.map_append]
      · exact ih _ p a h'

/-- After one ingestion run over a candidate list, a second run over the
same candidates finds nothing left to analyze whose analysis succeeds: its
insert batch is empty. -/
theorem ingest_second_batch (analyze : String → Option Analysis)
    (cands : List String) (cat : List Row) :
    ((cands.filter (fun p => p ∉ (ingest analyze cands cat).map Row.path)).filterMap
      (fun p => (analyze p).map (fun a => (p, a)))) = [] := by
  rw [List.filterMap_eq_nil_iff]
  intro p hp
  have hpc : p ∈ cands := (List.mem_filter.mp hp).1
  have hpn : p ∉ (ingest analyze cands cat).map Row.path := by
    have h2 := (List.mem_filter.mp hp).2
    simpa using h2
  cases han : analyze p with
  | none => rfl
  | some a =>
    exfalso
    apply hpn
    by_cases hin : p ∈ cat.map Row.path
    · exact insertBatch_path_mono _ cat p hin
    · refine insertBatch_path_adds _ cat p a ?_
      rw [List.mem_filterMap]
      refine ⟨p, ?_, ?_⟩
      · rw [List.mem_filter]
        exact ⟨hpc, by simpa using hin⟩
      · rw [han]
        rfl

/-- C5: re-running ingestion over the same candidate paths with an
unchanged analysis function inserts zero new asset rows: the catalog after
the second run equals — and in particular has the same number of rows as —
the catalog after the first, because every candidate either already has
its key present (set difference filters it out, or insert-or-ignore drops
it) or fails analysis again. -/
theorem ingest_idempotent (analyze : String → Option Analysis)
    (cands : List String) (cat : List Row) :
    ingest analyze cands (ingest analyze cands cat) = ingest analyze cands cat ∧
    (ingest analyze cands (ingest analyze cands cat)).length =
      (ingest analyze cands cat).length := by
  have hstep : ingest analyze cands (ingest analyze cands cat) =
      insertBatch (ingest analyze cands cat)
        ((cands.filter (fun p => p ∉ (ingest analyze cands cat).map Row.path)).filterMap
          (fun p => (analyze p).map (fun a => (p, a)))) := rfl
  have h : ingest analyze cands (ingest analyze cands cat) = ingest analyze cands cat := by
    rw [hstep, ingest_second_batch analyze cands cat]
    rfl
  exact ⟨h, by rw [h]⟩

/-- C6 counterexample: `keep_one` called with a kept key that is not a
member of the cluster does not fail and does not leave the cluster
untouched — it still moves the key to the keepers location, moves the
actual members to discards, and deletes the cluster's rows; moreover even
for a valid member the asset catalog keeps every other member (nothing is
deleted from the images table). -/
theorem keep_one_counterexample :
    "x" ∉ (["a", "b"] : List String) ∧
    (keep_one "x" ["a", "b"] 0 [(0, 1, true), (0, 2, false)] []).store ≠
      [(0, 1, true), (0, 2, false)] ∧
    (keep_one "x" ["a", "b"] 0 [(0, 1, true), (0, 2, false)] []).keepers = ["x"] ∧
    (keep_one "x" ["a", "b"] 0 [(0, 1, true), (0, 2, false)] []).discards = ["a", "b"] ∧
    (keep_one "a" ["a", "b"] 0 [(0, 1, true), (0, 2, false)]
        [⟨1, "a", [true], 0, 5, 10, 10, "NEW"⟩, ⟨2, "b", [true], 0, 5, 10, 10, "NEW"⟩]).catalog =
      [⟨1, "a", [true], 0, 5, 10, 10, "NEW"⟩, ⟨2, "b", [true], 0, 5, 10, 10, "NEW"⟩] := by
  refine ⟨by decide, by decide, rfl, by decide, rfl⟩

/-- C6 amended: `keep_one` performs no membership validation and has no
error outcome.  For every kept key — member or not — it moves the kept
file to the keepers location, moves exactly the cluster members other than
the kept file to the discards location, deletes the cluster's rows from
the cluster store, and leaves the asset catalog unchanged (the other
members are not deleted from it). -/
theorem keep_one_behavior (kp : String) (items : List String) (cid : Nat)
    (store : List (Nat × Nat × Bool)) (cat : List Row) :
    (keep_one kp items cid store cat).catalog = cat ∧
    (keep_one kp items cid store cat).keepers = [kp] ∧
    (∀ p, p ∈ (keep_one kp items cid store cat).discards ↔ p ∈ items ∧ p ≠ kp) ∧
    (∀ e, e ∈ (keep_one kp items cid store cat).store ↔ e ∈ store ∧ e.1 ≠ cid) := by
  refine ⟨rfl, rfl, ?_, ?_⟩ <;> intro x <;>
    simp [keep_one, dissolve_cluster, List.mem_filter]

/-- C7 counterexample: two identically-fingerprinted assets land in one
committed cluster, yet after the run every row of the images table still
has status `NEW` — the persist block never sets `CLUSTERED`. -/
theorem clustered_status_counterexample :
    ((findClusters 16 10 (sortByTs (dataObjs
        [⟨1, "a", [true, true], 0, 50, 100, 100, "NEW"⟩,
         ⟨2, "b", [true, true], 0, 50, 100, 100, "NEW"⟩]))).map
      (fun c => c.map Obj.id)) = [[1, 2]] ∧
    ∀ r ∈ (detectRun
        [⟨1, "a", [true, true], 0, 50, 100, 100, "NEW"⟩,
         ⟨2, "b", [true, true], 0, 50, 100, 100, "NEW"⟩] 16 10 []).2,
      r.status = "NEW" := by
  constructor
  · decide
  · decide

/-- C7 amended: assets are created with status `NEW` (the schema default,
applied by `mkRow` since the bulk insert names no status column), and the
clustering run mutates no asset field at all: the images table after the
run is exactly the images table before it, so members of committed
clusters keep their prior status instead of being set to `CLUSTERED`. -/
theorem detect_leaves_catalog (rows : List Row) (τ ρ : Nat)
    (s : List (Nat × Nat × Bool)) :
    (detectRun rows τ ρ s).2 = rows ∧
    ∀ i p a, (mkRow i p a).status = "NEW" :=
  ⟨rfl, fun _ _ _ => rfl⟩

/-- C8 counterexample: at a concrete asset (sharpness 10, 100 x 100 pixels,
saturation 20) the score the clustering engine uses to choose the winner,
`sharpness + width * height / 10000`, differs from the specified composite
`sharpness + width * height / C_res + saturation * W_sat` instantiated
with the constants the repository's revisions use (C_res = 10000,
W_sat = 1/2): the saturation term contributes nothing to the engine's
score. -/
theorem score_counterexample :
    score ⟨1, "a", [true], 0, 10, 100, 100, "NEW"⟩ ≠
      score_spec 10000 (1 / 2) 10 100 100 20 := by
  norm_num [score, score_spec]

/-- C8 amended: the clustering engine's composite score is
`sharpness + (width * height) / 10000` with the constant 10000 hard-coded
and no saturation term — it coincides with the specified composite exactly
when the saturation weight is zero and C_res is 10000; the v1 revision's
score is `sharpness + floor((width * height) / 10000) + saturation * 0.5`,
again with both constants hard-coded. -/
theorem score_formula (r : Row) (saturation : Nat) :
    score r = score_spec 10000 0 r.sharpness r.width r.height saturation ∧
    total_score_v1 r.sharpness r.width r.height saturation =
      (r.sharpness : ℚ) + ((r.width * r.height / 10000 : Nat) : ℚ) +
        (saturation : ℚ) * (1 / 2) := by
  constructor
  · simp [score, score_spec]
  · rfl

/-- C9 counterexample: the stored timestamp of an asset whose metadata
lacks a capture time equals the stored timestamp of an asset captured at
exactly epoch 0 — both are the integer 0, so absence is not
distinguishable. -/
theorem timestamp_absent_counterexample :
    get_timestamp none = get_timestamp (some 0) := rfl

/-- C9 amended: an asset lacking a capture timestamp is indexed with the
timestamp stored as the integer 0, not as an absent value; since a capture
time of exactly epoch 0 is also stored as 0, the two cases are
indistinguishable in the catalog, while every present timestamp is stored
verbatim. -/
theorem timestamp_absent_zero :
    get_timestamp none = 0 ∧ get_timestamp (some 0) = 0 ∧
    ∀ t : Nat, get_timestamp (some t) = t :=
  ⟨rfl, rfl, fun _ => rfl⟩

/-- C3: for every committed cluster, filtering its inserted rows down to
the winner-flagged ones yields exactly one row — that of the member the
Python max picks — and that member scores at least every member while every
member preceding it in the cluster's order scores strictly lower, i.e. the
winner is the first member attaining the maximal composite score in the
deterministic scan order (the cluster being a sublist of the scanned
sequence). -/
theorem winner_unique_first_max (τ ρ k : Nat) (l : List Obj) (c : List Obj)
    (hc : c ∈ findClusters τ ρ l) :
    ∃ w, pyMaxScore c = some w ∧
      ((persistCluster k c).filter (fun e => e.2.2)) = [(k, w.id, true)] ∧
      c.Sublist l ∧
      ∃ pre post, c = pre ++ w :: post ∧
        (∀ y ∈ pre, y.score < w.score) ∧ (∀ y ∈ c, y.score ≤ w.score) := by
  obtain ⟨s, ms, hcs, hne, hham⟩ := outer_break_shape τ ρ l [] c hc
  have hsub : c.Sublist l := outer_break_sub τ ρ l [] c hc
  have hnd : c.Nodup := List.Nodup.of_map _ (cluster_ids_nodup τ ρ l c hc)
  subst hcs
  obtain ⟨pre, post, hd, hpre, hall⟩ := pyMaxAux_spec ms s
  have hwmem : pyMaxAux s ms ∈ s :: ms := by
    rw [hd]
    exact List.mem_append_right _ (List.mem_cons_self _ _)
  refine ⟨pyMaxAux s ms, rfl, ?_, hsub, pre, post, hd, hpre, hall⟩
  have hrows := persist_winner_rows k (pyMaxAux s ms) (s :: ms) hnd hwmem
  simpa [persistCluster, pyMaxScore] using hrows

/-- C3 witness: the specification's own example — a cluster of three assets
with scores 40, 55, 55, where the second and third tie — has exactly one
winner row, carrying the id of the tying member that appears first. -/
theorem winner_unique_first_max_witness :
    (([⟨1, "a", [true], 0, 40⟩, ⟨2, "b", [true], 0, 55⟩,
       ⟨3, "c", [true], 0, 55⟩] : List Obj) ∈ findClusters 5 10
        [⟨1, "a", [true], 0, 40⟩, ⟨2, "b", [true], 0, 55⟩,
         ⟨3, "c", [true], 0, 55⟩]) ∧
    (∃ w, pyMaxScore ([⟨1, "a", [true], 0, 40⟩, ⟨2, "b", [true], 0, 55⟩,
          ⟨3, "c", [true], 0, 55⟩] : List Obj) = some w ∧
      ((persistCluster 0 [⟨1, "a", [true], 0, 40⟩, ⟨2, "b", [true], 0, 55⟩,
          ⟨3, "c", [true], 0, 55⟩]).filter (fun e => e.2.2)) = [(0, w.id, true)] ∧
      ([⟨1, "a", [true], 0, 40⟩, ⟨2, "b", [true], 0, 55⟩,
        ⟨3, "c", [true], 0, 55⟩] : List Obj).Sublist
          [⟨1, "a", [true], 0, 40⟩, ⟨2, "b", [true], 0, 55⟩,
           ⟨3, "c", [true], 0, 55⟩] ∧
      ∃ pre post, ([⟨1, "a", [true], 0, 40⟩, ⟨2, "b", [true], 0, 55⟩,
          ⟨3, "c", [true], 0, 55⟩] : List Obj) = pre ++ w :: post ∧
        (∀ y ∈ pre, y.score < w.score) ∧
        (∀ y ∈ ([⟨1, "a", [true], 0, 40⟩, ⟨2, "b", [true], 0, 55⟩,
            ⟨3, "c", [true], 0, 55⟩] : List Obj), y.score ≤ w.score)) :=
  ⟨by decide,
    winner_unique_first_max 5 10 0
      [⟨1, "a", [true], 0, 40⟩, ⟨2, "b", [true], 0, 55⟩, ⟨3, "c", [true], 0, 55⟩]
      [⟨1, "a", [true], 0, 40⟩, ⟨2, "b", [true], 0, 55⟩, ⟨3, "c", [true], 0, 55⟩]
      (by decide)⟩

/-- C10: every committed cluster is star-shaped around its seed — it is a
seed followed by a nonempty list of members, each within fingerprint
distance τ of the seed; membership never arises from a near-match between
two non-seed members, since the scan only ever compares against the
seed. -/
theorem cluster_star_shaped (τ ρ : Nat) (l : List Obj) (c : List Obj)
    (hc : c ∈ findClusters τ ρ l) :
    ∃ s ms, c = s :: ms ∧ ms ≠ [] ∧ ∀ b ∈ ms, hamming s.hash b.hash ≤ τ :=
  outer_break_shape τ ρ l [] c hc

/-- C10 witness: a concrete two-asset catalog whose fingerprints differ in
one bit forms one cluster, and the theorem applies to it. -/
theorem cluster_star_shaped_witness :
    (([⟨1, "a", [true, false], 0, 1⟩, ⟨2, "b", [true, true], 0, 2⟩] : List Obj) ∈
      findClusters 1 10 [⟨1, "a", [true, false], 0, 1⟩, ⟨2, "b", [true, true], 0, 2⟩]) ∧
    (∃ s ms, ([⟨1, "a", [true, false], 0, 1⟩, ⟨2, "b", [true, true], 0, 2⟩] : List Obj) =
        s :: ms ∧ ms ≠ [] ∧ ∀ b ∈ ms, hamming s.hash b.hash ≤ 1) :=
  ⟨by decide,
    cluster_star_shaped 1 10
      [⟨1, "a", [true, false], 0, 1⟩, ⟨2, "b", [true, true], 0, 2⟩]
      [⟨1, "a", [true, false], 0, 1⟩, ⟨2, "b", [true, true], 0, 2⟩]
      (by decide)⟩

end PhotoSterile
